import Mathlib

/-
Verification development for the ifacemaker declaration-resolution and
interface-synthesis engine (package `maker`).

The definitions below are a shallow embedding of the Go source: files are
modelled after `go/ast` at the level the code consumes them (package
name, imports, type specifications with struct fields, methods with
receiver text and parameter/result field lists), and every function mirrors
the corresponding Go function of `maker.go` (`GetReceiverTypeName`,
`FormatFieldList`, `ParseDeclaredTypes`, `ParseEmbeddingGraph`,
`ParseStruct`, `validateStructType`, `Make`).  File reading and the
final `imports.Process` formatting pass are the external collaborators of
the spec and are out of scope: `Make` is modelled on already-read file contents
and its result carries the interface text as assembled by `MakeInterface`
before the external formatter runs.

Go's regular expressions are modelled by direct matchers with the same
leftmost-first greedy semantics, and Go's `strings.Replace` /
`strings.ReplaceAll` / `regexp.ReplaceAllString` by explicit scans with the
same non-overlapping left-to-right behaviour.  Recursions that are not
structural use an explicit fuel argument that provably suffices, so every
definition evaluates by kernel reduction.
-/

namespace Ifacemaker

/-- Go regexp word character, the `\w` class: `[0-9A-Za-z_]`. -/
def isWordChar (c : Char) : Bool :=
  c.isAlphanum || c == '_'

/-- `ast.IsExported`: an identifier is exported when its first character is
upper case (ASCII suffices for the inputs modelled here). -/
def isExportedName (s : String) : Bool :=
  match s.data with
  | [] => false
  | c :: _ => c.isUpper

/-- `startsWithList pat l` holds when `pat` is an initial segment of `l`
(Boolean prefix test used to model Go regexp literal matching). -/
def startsWithList : List Char → List Char → Bool
  | [], _ => true
  | _ :: _, [] => false
  | p :: ps, c :: cs => p == c && startsWithList ps cs

/-- `strings.Replace(t, old, new, 1)`: replace the leftmost occurrence of
`old` in `t` by `new`; an empty `old` inserts `new` at the start. -/
def replaceFirstAux (old new : List Char) : List Char → List Char
  | [] => []
  | c :: cs =>
    if startsWithList old (c :: cs) then new ++ (c :: cs).drop old.length
    else c :: replaceFirstAux old new cs

/-- String wrapper for `replaceFirstAux`, the model of
`strings.Replace(t, old, new, 1)`. -/
def replaceFirst (t old new : String) : String :=
  if old.data.isEmpty then new ++ t
  else ⟨replaceFirstAux old.data new.data t.data⟩

/-- `strings.ReplaceAll(t, old, new)` with non-empty `old`: non-overlapping
left-to-right replacement; fuelled so it evaluates by kernel reduction
(fuel equal to the list length always suffices since each step consumes at
least one character). -/
def replaceAllAux (old new : List Char) : Nat → List Char → List Char
  | 0, cs => cs
  | _ + 1, [] => []
  | n + 1, c :: cs =>
    if startsWithList old (c :: cs) then new ++ replaceAllAux old new n ((c :: cs).drop old.length)
    else c :: replaceAllAux old new n cs

/-- String wrapper for `replaceAllAux`, the model of
`strings.ReplaceAll(t, old, new)` (the code never calls it with empty
`old`). -/
def replaceAllStr (t old new : String) : String :=
  if old.data.isEmpty then t
  else ⟨replaceAllAux old.data new.data t.data.length t.data⟩

/--
Model of `regexp.MustCompile("(^|[^\\w])" + QuoteMeta(pkgName) + "\\.")
.ReplaceAllString(t, "$1")` from `FormatFieldList`: a left-to-right
non-overlapping scan that removes `pat` (which is `pkgName ++ "."`) when it
occurs at the start of the text or right after a non-word character, keeping
that character.  After a replaced occurrence the scan resumes at the first
unconsumed character, exactly like Go's `ReplaceAllString`; fuel equal to
the list length always suffices.
-/
def stripAux (pat : List Char) : Nat → Bool → List Char → List Char
  | 0, _, cs => cs
  | _ + 1, _, [] => []
  | n + 1, atStart, c :: cs =>
    if atStart && startsWithList pat (c :: cs) then
      stripAux pat n false ((c :: cs).drop pat.length)
    else if !isWordChar c && startsWithList pat cs then
      c :: stripAux pat n false (cs.drop pat.length)
    else
      c :: stripAux pat n false cs

/-- Destination-package stripping from `FormatFieldList`: remove
`pkgName ++ "."` at the start of the text or after a non-word character. -/
def stripDestPkg (pkgName t : String) : String :=
  ⟨stripAux (pkgName.data ++ ['.']) t.data.length true t.data⟩

/--
One iteration of the inner alternation of `reMatchTypename`, i.e. the
group `(\[\]|\*|map\[[^\]]+\])` tried at the current position.  The three
alternatives start with distinct characters, so at most one applies; the
`map\[[^\]]+\]` body is the maximal run of non-`]` characters and must be
non-empty.  Returns the consumed token and the rest.
-/
def modTok (cs : List Char) : Option (List Char × List Char) :=
  if startsWithList ['[', ']'] cs then some (['[', ']'], cs.drop 2)
  else if startsWithList ['*'] cs then some (['*'], cs.drop 1)
  else if startsWithList ['m', 'a', 'p', '['] cs then
    let body := (cs.drop 4).takeWhile (fun c => c != ']')
    match (cs.drop 4).dropWhile (fun c => c != ']') with
    | ']' :: rest => if body.isEmpty then none else some ('m' :: 'a' :: 'p' :: '[' :: body ++ [']'], rest)
    | _ => none
  else none

/--
The anchored tail `(\w+)(\[.+\])?$` of `reMatchTypename` (which is also the
whole of the receiver regex `^(\w+)(?:\[.+\])?$`): a non-empty maximal run
of word characters, optionally followed by a bracketed non-empty suffix of
non-newline characters reaching the end of the text.  Returns the word and
the bracketed suffix (empty when absent).
-/
def tailMatch (cs : List Char) : Option (List Char × List Char) :=
  if (cs.takeWhile isWordChar).isEmpty then none
  else if (cs.dropWhile isWordChar).isEmpty then some (cs.takeWhile isWordChar, [])
  else if (cs.dropWhile isWordChar).head? == some '[' &&
          (cs.dropWhile isWordChar).getLast? == some ']' then
    if ((cs.dropWhile isWordChar).drop 1).dropLast.isEmpty then none
    else if ((cs.dropWhile isWordChar).drop 1).dropLast.any (fun c => c == '\n') then none
    else some (cs.takeWhile isWordChar, cs.dropWhile isWordChar)
  else none

/--
Leftmost-first match of `^((\[\]|\*|map\[[^\]]+\])*)?(\w+)(\[.+\])?$`
against the whole text: greedily consume modifier tokens, backtracking to
fewer tokens when the tail fails to match, exactly as Go's regexp engine
resolves this pattern.  Returns the token list, the word and the generic
suffix.  Fuel equal to the list length plus one always suffices because
every token is non-empty.
-/
def matchFromAux : Nat → List Char → Option (List (List Char) × List Char × List Char)
  | 0, _ => none
  | n + 1, cs =>
    match modTok cs with
    | some (tok, rest) =>
      match matchFromAux n rest with
      | some (toks, w, g) => some (tok :: toks, w, g)
      | none =>
        match tailMatch cs with
        | some (w, g) => some ([], w, g)
        | none => none
    | none =>
      match tailMatch cs with
      | some (w, g) => some ([], w, g)
      | none => none

/-- The submatch groups of `reMatchTypename` as Go's `FindStringSubmatch`
reports them: `g1` is the whole modifier run (outer group), `g2` the last
iteration of the inner alternation group, `g3` the `(\w+)` word and `g4`
the `(\[.+\])?` suffix; a group that did not participate is `""`. -/
structure ReGroups where
  g1 : String
  g2 : String
  g3 : String
  g4 : String
deriving DecidableEq, Repr

/-- `reMatchTypename.FindStringSubmatch(t)` with
`reMatchTypename = ^((\[\]|\*|map\[[^\]]+\])*)?(\w+)(\[.+\])?$`
(the inner alternation group of the source is capturing, so it is group 2
and shifts the word to group 3 and the generic suffix to group 4). -/
def reMatchTypenameGroups (t : String) : Option ReGroups :=
  match matchFromAux (t.data.length + 1) t.data with
  | some (toks, w, g) => some ⟨⟨toks.flatten⟩, ⟨toks.getLastD []⟩, ⟨w⟩, ⟨g⟩⟩
  | none => none

/-- The receiver regex `^(\w+)(?:\[.+\])?$` of `GetReceiverTypeName`:
return the leading word when the text matches, otherwise leave the text
unchanged (no submatch means no rewrite in the source). -/
def receiverBaseName (st : String) : String :=
  match tailMatch st.data with
  | some (w, _) => ⟨w⟩
  | none => st

/-- Receiver-name normalisation from `GetReceiverTypeName`: strip a leading
`*`, then strip a bracketed generic suffix via the receiver regex. -/
def normalizeReceiver (st : String) : String :=
  receiverBaseName
    (if st.data.head? == some '*' then (⟨st.data.drop 1⟩ : String) else st)

/-! ### The parsed-file data model

The Go code consumes a parsed `ast.File` through: the package name,
the import list, type declarations (specifications with name, optional
type-parameter clause text, struct fields) and function declarations
(name, receiver type text, parameter/result field lists, doc lines).
Type expressions are consumed both structurally (`baseIdentName`,
`getEmbeddedStructName`) and as their source text; the model renders the
canonical (gofmt) text of the expression. -/

/-- `declaredType` of the source: the name and package of one type
declaration. -/
structure declaredType where
  Name : String
  Package : String
deriving DecidableEq, Repr

/-- `declaredType.Fullname`: the scoped `Package.Name` string. -/
def declaredType.Fullname (dt : declaredType) : String :=
  dt.Package ++ "." ++ dt.Name

/-- The subset of `ast.Expr` the code inspects in field and receiver
positions: identifiers, qualified identifiers, pointers, slices, maps and
generic instantiations (whose argument list is kept as text). -/
inductive GoExpr where
  | ident (name : String)
  | sel (x : GoExpr) (selName : String)
  | star (e : GoExpr)
  | slice (elt : GoExpr)
  | mapT (key : GoExpr) (value : GoExpr)
  | index (x : GoExpr) (argsText : String)
deriving DecidableEq, Repr

/-- Source text of a type expression (the code reads
`src[l.Type.Pos()-1 : l.Type.End()-1]`; for gofmt-formatted input this is
the canonical rendering). -/
def renderExpr : GoExpr → String
  | .ident n => n
  | .sel x s => renderExpr x ++ "." ++ s
  | .star e => "*" ++ renderExpr e
  | .slice e => "[]" ++ renderExpr e
  | .mapT k v => "map[" ++ renderExpr k ++ "]" ++ renderExpr v
  | .index x args => renderExpr x ++ "[" ++ args ++ "]"

/-- `baseIdentName`: follow pointers, slices, map values and generic
instantiations to the underlying identifier; a qualified name yields its
local identifier. -/
def baseIdentName : GoExpr → String
  | .ident n => n
  | .sel _ s => s
  | .star e => baseIdentName e
  | .slice e => baseIdentName e
  | .mapT _ v => baseIdentName v
  | .index x _ => baseIdentName x

/-- `getEmbeddedStructName`: the base struct name of an embedded field.
Unlike `baseIdentName` it unwraps only identifiers, selectors, pointers and
generic instantiations; any other expression falls into the default branch
and yields `""`. -/
def getEmbeddedStructName : GoExpr → String
  | .ident n => n
  | .sel _ s => s
  | .star e => getEmbeddedStructName e
  | .index x _ => getEmbeddedStructName x
  | .slice _ => ""
  | .mapT _ _ => ""

/-- One entry of an `ast.FieldList`: the shared name list (empty for an
unnamed or embedded field) and the type expression. -/
structure GoField where
  names : List String
  type : GoExpr
deriving DecidableEq, Repr

/-- One import of the file: optional alias and the quoted path literal
(`i.Path.Value` keeps the quotes). -/
structure GoImport where
  aliasName : Option String
  path : String
deriving DecidableEq, Repr

/-- A function or method declaration: `recv` is the source text of the
receiver type when the declaration is a method (`none` for a plain
function), `docs` the doc-comment lines (empty when there is no doc). -/
structure GoFunc where
  name : String
  recv : Option String
  params : List GoField
  results : List GoField
  docs : List String
deriving DecidableEq, Repr

/-- One `ast.TypeSpec`: name, optional type-parameter clause text,
whether the underlying type is a struct, the struct fields and the type
doc (`""` when absent; modelled already trimmed of its trailing newline as
`ParseStruct` produces it). -/
structure GoTypeSpec where
  name : String
  typeParams : Option String
  isStruct : Bool
  fields : List GoField
  doc : String
deriving DecidableEq, Repr

/-- A top-level declaration: a `type` block (possibly grouping several
specifications) or a function declaration.  Other declaration kinds
contribute nothing to any of the modelled functions. -/
inductive GoDecl where
  | typeDecl (specs : List GoTypeSpec)
  | funcDecl (fn : GoFunc)
deriving DecidableEq, Repr

/-- A parsed input file. -/
structure GoFile where
  pkg : String
  imports : List GoImport
  decls : List GoDecl
deriving DecidableEq, Repr

/-- `Method` of the source: name, formatted signature and doc lines. -/
structure Method where
  Name : String
  Code : String
  Docs : List String
deriving DecidableEq, Repr

/-- `Method.Lines`: docs followed by the code. -/
def Method.lines (m : Method) : List String :=
  m.Docs ++ [m.Code]

/-! ### FormatFieldList -/

/--
`FormatFieldList` applied to a single field: read the source text and the
structural base identifier, run `reMatchTypename`, pick `match[1]` as the
modifier prefix and `match[3]` as the generic suffix (as the source does),
qualify the type with the first declared type whose name equals the base
identifier and whose package differs from the destination package, strip
the destination-package qualifier, and join with the field names.
-/
def formatFieldEntry (pkgName : String) (declaredTypes : List declaredType) (fld : GoField) : String :=
  let t0 := renderExpr fld.type
  let t2 := baseIdentName fld.type
  let m := reMatchTypenameGroups t0
  let pfx := match m with
    | some g => g.g1
    | none => ""
  let gens := match m with
    | some g => g.g3
    | none => ""
  let t1 := match declaredTypes.find? (fun dt => t2 == dt.Name && pkgName != dt.Package) with
    | some dt =>
      match m with
      | some _ => pfx ++ dt.Fullname ++ gens
      | none => replaceFirst t0 t2 dt.Fullname
    | none => t0
  let t3 := stripDestPkg pkgName t1
  if fld.names.isEmpty then t3
  else String.intercalate ", " fld.names ++ " " ++ t3

/-- `FormatFieldList` over a whole field list (a `nil` field list in Go
yields `nil`, which downstream is indistinguishable from the empty list). -/
def FormatFieldList (fl : List GoField) (pkgName : String) (declaredTypes : List declaredType) : List String :=
  fl.map (formatFieldEntry pkgName declaredTypes)

/-! ### ParseDeclaredTypes, ParseEmbeddingGraph -/

/-- `GetTypeDeclarationName` restricted to its first specification, as in
the source (empty string when the declaration is not a type block or has
no specification). -/
def GetTypeDeclarationName : GoDecl → String
  | .typeDecl (ts :: _) => ts.name
  | _ => ""

/-- `getTypeDeclarationNames`: all type names of a declaration (empty for
non-type declarations). -/
def getTypeDeclarationNames : GoDecl → List String
  | .typeDecl specs => specs.map (·.name)
  | _ => []

/-- `ParseDeclaredTypes`: every declared type name of the file, tagged with
the file's package name, in declaration order. -/
def ParseDeclaredTypes (f : GoFile) : List declaredType :=
  ((f.decls.map getTypeDeclarationNames).flatten).map
    (fun n => { Name := n, Package := f.pkg })

/-- Association-list update with Go map semantics: append `vs` to the entry
of `k`, creating the entry when absent (insertion order preserved; keys
stay unique). -/
def graphAppend (g : List (String × List String)) (k : String) (vs : List String) : List (String × List String) :=
  match g with
  | [] => [(k, vs)]
  | (k0, v0) :: rest =>
    if k0 == k then (k0, v0 ++ vs) :: rest
    else (k0, v0) :: graphAppend rest k vs

/-- Go map lookup on the embedding graph: a missing key yields the empty
list (`nil` slice). -/
def adjOf (g : List (String × List String)) (k : String) : List String :=
  match g.find? (fun p => p.1 == k) with
  | some p => p.2
  | none => []

/-- The embedded-type names of one struct specification: fields without
names, resolved through `getEmbeddedStructName`, dropping empty results. -/
def embeddedNamesOf (ts : GoTypeSpec) : List String :=
  ((ts.fields.filter (fun fld => fld.names.isEmpty)).map
    (fun fld => getEmbeddedStructName fld.type)).filter (fun n => n != "")

/-- `ParseEmbeddingGraph`: for every struct specification record the entry
`name ↦ embedded base names` (an entry is created even when the struct
embeds nothing, as the source inserts the empty slice first). -/
def ParseEmbeddingGraph (f : GoFile) : List (String × List String) :=
  f.decls.foldl
    (fun g d =>
      match d with
      | .typeDecl specs =>
        specs.foldl
          (fun g ts =>
            if ts.isStruct then graphAppend g ts.name (embeddedNamesOf ts)
            else g)
          g
      | .funcDecl _ => g)
    []

/-! ### ParseStruct -/

/-- The formatted `Method` of one method declaration, as assembled by both
loops of `ParseStruct`: `Name(params)` when there are no results and
`Name(params) (results)` otherwise; docs are copied verbatim when
requested. -/
def methodFromFunc (copyDocs : Bool) (pkgName : String) (declaredTypes : List declaredType) (fn : GoFunc) : Method :=
  let params := FormatFieldList fn.params pkgName declaredTypes
  let ret := FormatFieldList fn.results pkgName declaredTypes
  let code :=
    if ret.isEmpty then fn.name ++ "(" ++ String.intercalate ", " params ++ ")"
    else fn.name ++ "(" ++ String.intercalate ", " params ++ ") (" ++ String.intercalate ", " ret ++ ")"
  { Name := fn.name, Code := code, Docs := if copyDocs then fn.docs else [] }

/--
One extraction loop of `ParseStruct` (both the direct-methods loop and the
promoted-methods loop have this shape; the target is only declarations
that are methods, the receiver name is normalised by
`GetReceiverTypeName`, and `keep` is the loop's receiver filter: equality
with the target type for the direct loop, membership in the embedded
closure for the promoted loop).  The accumulator pairs the methods
collected so far with the seen-name set `methodSet`, threaded through both
loops.
-/
def methodPassStep (keep : String → Bool) (withNotExported copyDocs : Bool) (pkgName : String) (declaredTypes : List declaredType) (acc : List Method × List String) (d : GoDecl) : List Method × List String :=
  match d with
  | .funcDecl fn =>
    match fn.recv with
    | some recvText =>
      if keep (normalizeReceiver recvText) then
        if acc.2.contains fn.name then acc
        else if !withNotExported && !isExportedName fn.name then acc
        else (acc.1 ++ [methodFromFunc copyDocs pkgName declaredTypes fn], acc.2 ++ [fn.name])
      else acc
    | none => acc
  | .typeDecl _ => acc

/-- The declaration loop built from `methodPassStep`. -/
def methodPass (keep : String → Bool) (withNotExported copyDocs : Bool) (pkgName : String) (declaredTypes : List declaredType) : List GoDecl → List Method × List String → List Method × List String
  | [], acc => acc
  | d :: ds, acc =>
    methodPass keep withNotExported copyDocs pkgName declaredTypes ds
      (methodPassStep keep withNotExported copyDocs pkgName declaredTypes acc d)

/-- The direct-methods loop of `ParseStruct`: methods whose normalised
receiver name equals the target type, starting from the empty method list
and empty seen-name set. -/
def directMethods (f : GoFile) (structName : String) (withNotExported copyDocs : Bool) (pkgName : String) (declaredTypes : List declaredType) : List Method × List String :=
  methodPass (fun a => a == structName) withNotExported copyDocs pkgName declaredTypes f.decls ([], [])

/-- The type-parameter clause extraction of `ParseStruct`: the clause text
of the last specification named `structName` carrying one. -/
def typeParamsOf (f : GoFile) (structName : String) : String :=
  f.decls.foldl
    (fun tp d =>
      match d with
      | .typeDecl specs =>
        specs.foldl
          (fun tp ts =>
            if ts.name == structName then
              match ts.typeParams with
              | some t => t
              | none => tp
            else tp)
          tp
      | .funcDecl _ => tp)
    ""

/-- The type-doc extraction of `ParseStruct` (via `doc.NewFromFiles`): the
doc of the type named `structName` (already newline-trimmed in the
model). -/
def typeDocOf (f : GoFile) (structName : String) : String :=
  f.decls.foldl
    (fun td d =>
      match d with
      | .typeDecl specs =>
        specs.foldl (fun td ts => if ts.name == structName then ts.doc else td) td
      | .funcDecl _ => td)
    ""

/-- One import line of `ParseStruct`: `alias path` or the bare quoted
path. -/
def importLine (i : GoImport) : String :=
  match i.aliasName with
  | some a => a ++ " " ++ i.path
  | none => i.path

/--
`ParseStruct`: type-parameter clause, imports (with the optional
`. "importModule"` wildcard entry), then the direct-methods loop followed —
when `withPromoted` is set — by the promoted-methods loop over the same
declarations, sharing the seen-name set; finally the optional type doc.
Returns `(methods, imports, typeDoc, typeParams)`.  (The source aborts the
process on a parse error; the model starts from an already-parsed file.)
-/
def ParseStruct (f : GoFile) (structName : String) (copyDocs copyTypeDocs : Bool) (pkgName : String) (declaredTypes : List declaredType) (importModule : String) (withNotExported : Bool) (embeddedSet : List String) (withPromoted : Bool) : List Method × List String × String × String :=
  let typeParams := typeParamsOf f structName
  let imports0 := f.imports.map importLine
  let imports1 :=
    if importModule != "" then imports0 ++ [". \"" ++ importModule ++ "\""]
    else imports0
  let direct := directMethods f structName withNotExported copyDocs pkgName declaredTypes
  let ms :=
    if withPromoted then
      (methodPass (fun a => embeddedSet.contains a) withNotExported copyDocs pkgName declaredTypes f.decls direct).1
    else direct.1
  let typeDoc := if copyTypeDocs then typeDocOf f structName else ""
  (ms, imports1, typeDoc, typeParams)

/-! ### Make -/

/-- `validateStructType`: the requested type name occurs among the declared
types (name comparison only). -/
def validateStructType (types : List declaredType) (stType : String) : Bool :=
  types.any (fun v => v.Name == stType)

/-- First pass of `Make` over the declared types of one file: keep a type
whose fullname was not seen yet (`tset` tracks seen fullnames). -/
def dedupTypes (ts : List declaredType) (acc : List declaredType × List String) : List declaredType × List String :=
  ts.foldl
    (fun acc t =>
      if acc.2.contains t.Fullname then acc
      else (acc.1 ++ [t], acc.2 ++ [t.Fullname]))
    acc

/-- The global declared-type list accumulated by the first pass of
`Make`. -/
def allTypesOfFiles (files : List GoFile) : List declaredType :=
  (files.foldl (fun acc f => dedupTypes (ParseDeclaredTypes f) acc) ([], [])).1

/-- The global embedding graph accumulated by the first pass of `Make`
(per-key value lists are appended in file order; the Go map's iteration
order does not affect the resulting content). -/
def fullEmbeddingGraphOf (files : List GoFile) : List (String × List String) :=
  files.foldl
    (fun g f => (ParseEmbeddingGraph f).foldl (fun g kv => graphAppend g kv.1 kv.2) g)
    []

/-- The universe of names appearing as embedding targets in the graph:
every name the breadth-first traversal can ever enqueue. -/
def graphUniverse (g : List (String × List String)) : List String :=
  (g.map (fun p => p.2)).flatten

/-- The number of universe entries not yet visited. -/
def notVisitedCount (g : List (String × List String)) (visited : List String) : Nat :=
  ((graphUniverse g).filter (fun x => !visited.contains x)).length

/-- Termination measure of the breadth-first loop of `Make`: unvisited
universe entries plus pending queue entries. -/
def bfsMeasure (g : List (String × List String)) (queue visited : List String) : Nat :=
  notVisitedCount g visited + queue.length

/-- The inner loop of the closure computation of `Make`: for every
embedded name of the current node, skip it when already visited, otherwise
mark it visited and enqueue it. -/
def bfsInner (adj : List String) (vq : List String × List String) : List String × List String :=
  adj.foldl
    (fun vq x => if vq.1.contains x then vq else (vq.1 ++ [x], vq.2 ++ [x]))
    vq

/-- The breadth-first closure loop of `Make`, with explicit fuel: dequeue
the head, fold its adjacency through `bfsInner`, repeat; `none` only when
the fuel runs out (the termination theorem shows fuel `bfsMeasure + 1`
never does). -/
def bfsAux (g : List (String × List String)) : Nat → List String → List String → Option (List String)
  | _, [], visited => some visited
  | 0, _ :: _, _ => none
  | n + 1, curr :: queue, visited =>
    let vq := bfsInner (adjOf g curr) (visited, queue)
    bfsAux g n vq.2 vq.1

/-- `embeddedStructNamesSet` as computed by `Make`: the breadth-first
closure of the embedding graph from the requested type (the start node
itself is in the closure only when it is reachable through an edge). -/
def embeddedClosure (g : List (String × List String)) (start : String) : List String :=
  (bfsAux g (bfsMeasure g [start] [] + 1) [start] []).getD []

/-- Options of `Make` (`Files` replaced by already-read parsed files; file
reading is the external collaborator). -/
structure MakeOptions where
  files : List GoFile
  structType : String
  comment : String := ""
  pkgName : String := ""
  withPromoted : Bool := false
  ifaceName : String := ""
  ifaceComment : String := ""
  importModule : String := ""
  copyDocs : Bool := false
  copyTypeDoc : Bool := false
  excludeMethods : List String := []
  withNotExported : Bool := false
deriving Repr

/-- The per-method merge loop of the second pass of `Make`: drop excluded
names, then drop names already recorded in `mset`, otherwise record the
method and its name. -/
def mergeMethods (excluded : List String) : List Method → List Method × List String → List Method × List String
  | [], acc => acc
  | m :: ms, acc =>
    mergeMethods excluded ms
      (if excluded.contains m.Name then acc
       else if acc.2.contains m.Name then acc
       else (acc.1 ++ [m], acc.2 ++ [m.Name]))

/-- The import merge loop of the second pass of `Make`: textual dedup. -/
def mergeImports : List String → List String × List String → List String × List String
  | [], acc => acc
  | i :: is, acc =>
    mergeImports is
      (if acc.2.contains i then acc
       else (acc.1 ++ [i], acc.2 ++ [i]))

/-- The mutable state of the second pass of `Make`. -/
structure MakeState where
  methods : List Method
  mset : List String
  importLines : List String
  iset : List String
  typeDoc : String
  ifaceParams : String
deriving Repr

/-- The second pass of `Make` for one file: extract with `ParseStruct`,
merge methods and imports, retain the first non-empty type doc and
type-parameter clause. -/
def makeStep (o : MakeOptions) (allDecl : List declaredType) (closure : List String) (st : MakeState) (f : GoFile) : MakeState :=
  let r := ParseStruct f o.structType o.copyDocs o.copyTypeDoc o.pkgName allDecl o.importModule o.withNotExported closure o.withPromoted
  let ms := mergeMethods o.excludeMethods r.1 (st.methods, st.mset)
  let im := mergeImports r.2.1 (st.importLines, st.iset)
  { methods := ms.1
    mset := ms.2
    importLines := im.1
    iset := im.2
    typeDoc := if st.typeDoc == "" then r.2.2.1 else st.typeDoc
    ifaceParams := if st.ifaceParams == "" then r.2.2.2 else st.ifaceParams }

/-- `MakeInterface` up to (and excluding) the external `FormatCode`
collaborator: the literal text handed to the formatter. -/
def makeInterfaceText (comment pkgName ifaceName ifaceComment typeParams : String) (methods imports : List String) : String :=
  let output := ["// " ++ comment, "", "package " ++ pkgName, "import ("] ++ imports ++ [")", ""]
  let output := output ++
    (if ifaceComment.length > 0 then
       [(if startsWithList "go:generate".data ifaceComment.data then "//" else "// ")
         ++ replaceAllStr ifaceComment "\n" "\n// "]
     else [])
  let output := output ++ ["type " ++ ifaceName ++ typeParams ++ " interface \x7b"] ++ methods ++ ["\x7d"]
  String.intercalate "\n" output

/-- The successful result of `Make`: the retained methods (whose flattened
`Lines` form the emitted method lines), the import lines, the merged doc
fragments and the interface text before the external formatter. -/
structure MakeResult where
  methods : List Method
  methodLines : List String
  importLines : List String
  typeDoc : String
  typeParams : String
  code : String
deriving Repr

/-- The error message of the validation failure of `Make`
(`%q structtype not found in input files`). -/
def notFoundMsg (structType : String) : String :=
  "\"" ++ structType ++ "\" structtype not found in input files"

/-- The state after the whole second pass of `Make`: fold `makeStep` over
the input files in the caller-supplied order, starting from the empty
accumulators (the declared types and closure fed to `ParseStruct` are the
ones computed by the first pass). -/
def makeFinalState (o : MakeOptions) : MakeState :=
  o.files.foldl
    (makeStep o (allTypesOfFiles o.files)
      (embeddedClosure (fullEmbeddingGraphOf o.files) o.structType))
    { methods := [], mset := [], importLines := [], iset := [], typeDoc := "", ifaceParams := "" }

/--
`Make`: first pass accumulating declared types and the embedding graph,
validation of the requested type, breadth-first embedding closure, second
pass merging per-file extraction results, interface-comment composition
and assembly of the interface text (the final `FormatCode` run is the
external formatter collaborator and file I/O errors are outside the
model).
-/
def Make (o : MakeOptions) : Except String MakeResult :=
  if !validateStructType (allTypesOfFiles o.files) o.structType then
    Except.error (notFoundMsg o.structType)
  else
    let st := makeFinalState o
    let ifaceComment :=
      if st.typeDoc != "" then o.ifaceComment ++ "\n" ++ st.typeDoc
      else o.ifaceComment
    let lines := (st.methods.map Method.lines).flatten
    Except.ok
      { methods := st.methods
        methodLines := lines
        importLines := st.importLines
        typeDoc := st.typeDoc
        typeParams := st.ifaceParams
        code := makeInterfaceText o.comment o.pkgName o.ifaceName ifaceComment st.ifaceParams lines st.importLines }

/-- The names of the methods retained by a run of `Make` (empty on
error: an aborted run emits nothing). -/
def makeMethodNames (o : MakeOptions) : List String :=
  match Make o with
  | .ok r => r.methods.map Method.Name
  | .error _ => []

/-- The formatted signatures retained by a run of `Make`, for concrete
evaluation in the scenario theorems. -/
def makeMethodCodes (o : MakeOptions) : Except String (List String) :=
  (Make o).map (fun r => r.methods.map Method.Code)

/-! ### General list lemmas -/

theorem contains_iff {l : List String} {x : String} : l.contains x = true ↔ x ∈ l :=
  List.elem_iff

theorem contains_false_iff {l : List String} {x : String} : l.contains x = false ↔ x ∉ l := by
  rw [← contains_iff]
  cases l.contains x <;> simp

theorem filter_length_le {α : Type} (p q : α → Bool) (U : List α)
    (himp : ∀ a, q a = true → p a = true) :
    (U.filter q).length ≤ (U.filter p).length := by
  induction U with
  | nil => simp
  | cons u tl ih =>
    cases hqu : q u with
    | true =>
      have hpu := himp u hqu
      simp only [List.filter_cons, hqu, hpu, if_true]
      exact Nat.succ_le_succ ih
    | false =>
      cases hpu : p u with
      | true =>
        simp only [List.filter_cons, hqu, hpu]
        simp only [if_false, if_true]
        exact Nat.le_succ_of_le ih
      | false =>
        simp only [List.filter_cons, hqu, hpu, if_false]
        exact ih

theorem filter_length_lt {α : Type} (p q : α → Bool) (U : List α)
    (himp : ∀ a, q a = true → p a = true) (x : α) (hxU : x ∈ U)
    (hpx : p x = true) (hqx : q x = false) :
    (U.filter q).length < (U.filter p).length := by
  induction U with
  | nil => cases hxU
  | cons u tl ih =>
    rcases List.mem_cons.mp hxU with rfl | hmem
    · simp only [List.filter_cons, hpx, hqx, if_true, if_false]
      exact Nat.lt_succ_of_le (filter_length_le p q tl himp)
    · cases hqu : q u with
      | true =>
        have hpu := himp u hqu
        simp only [List.filter_cons, hqu, hpu, if_true]
        exact Nat.succ_lt_succ (ih hmem)
      | false =>
        cases hpu : p u with
        | true =>
          simp only [List.filter_cons, hqu, hpu, if_true, if_false]
          exact Nat.lt_succ_of_lt (ih hmem)
        | false =>
          simp only [List.filter_cons, hqu, hpu, if_false]
          exact ih hmem

theorem nodup_append_single {l : List String} {x : String} (h1 : l.Nodup) (h2 : x ∉ l) :
    (l ++ [x]).Nodup := by
  simp [List.nodup_append, h1, h2]

/-! ### Breadth-first closure: termination, dedup, completeness -/

theorem adjOf_subset_universe (g : List (String × List String)) (k : String) :
    ∀ x ∈ adjOf g k, x ∈ graphUniverse g := by
  intro x hx
  unfold adjOf at hx
  cases hfind : g.find? (fun p => p.1 == k) with
  | none => rw [hfind] at hx; cases hx
  | some p =>
    rw [hfind] at hx
    have hp : p ∈ g := List.mem_of_find?_eq_some hfind
    unfold graphUniverse
    rw [List.mem_flatten]
    exact ⟨p.2, List.mem_map_of_mem _ hp, hx⟩

theorem notVisited_le_extend (g : List (String × List String)) (v : List String) (x : String) :
    notVisitedCount g (v ++ [x]) ≤ notVisitedCount g v := by
  refine filter_length_le _ _ _ (fun a h => ?_)
  rw [Bool.not_eq_true', contains_false_iff] at h ⊢
  intro hmem
  exact h (List.mem_append_left _ hmem)

theorem notVisited_lt_new (g : List (String × List String)) (v : List String) (x : String)
    (hxU : x ∈ graphUniverse g) (hxv : x ∉ v) :
    notVisitedCount g (v ++ [x]) < notVisitedCount g v := by
  refine filter_length_lt _ _ _ (fun a h => ?_) x hxU ?_ ?_
  · rw [Bool.not_eq_true', contains_false_iff] at h ⊢
    intro hmem
    exact h (List.mem_append_left _ hmem)
  · rw [Bool.not_eq_true', contains_false_iff]
    exact hxv
  · simp [contains_iff]

theorem bfsInner_nil (vq : List String × List String) : bfsInner [] vq = vq := rfl

theorem bfsInner_cons (x : String) (adj : List String) (v q : List String) :
    bfsInner (x :: adj) (v, q)
      = bfsInner adj (if v.contains x then (v, q) else (v ++ [x], q ++ [x])) := rfl

theorem bfsInner_ext (adj : List String) :
    ∀ v q : List String, ∃ ext, bfsInner adj (v, q) = (v ++ ext, q ++ ext) := by
  induction adj with
  | nil => exact fun v q => ⟨[], by simp [bfsInner_nil]⟩
  | cons x tl ih =>
    intro v q
    rw [bfsInner_cons]
    cases hc : v.contains x with
    | true =>
      rw [if_pos rfl]
      exact ih v q
    | false =>
      rw [if_neg Bool.false_ne_true]
      obtain ⟨ext, hext⟩ := ih (v ++ [x]) (q ++ [x])
      exact ⟨[x] ++ ext, by rw [hext]; simp⟩

theorem bfsInner_adj_subset (adj : List String) :
    ∀ (v q : List String) (x : String), x ∈ adj → x ∈ (bfsInner adj (v, q)).1 := by
  induction adj with
  | nil => intro v q x hx; cases hx
  | cons y tl ih =>
    intro v q x hx
    rw [bfsInner_cons]
    rcases List.mem_cons.mp hx with rfl | hmem
    · cases hc : v.contains x with
      | true =>
        rw [if_pos rfl]
        obtain ⟨ext, hext⟩ := bfsInner_ext tl v q
        rw [hext]
        exact List.mem_append_left _ (contains_iff.mp hc)
      | false =>
        rw [if_neg Bool.false_ne_true]
        obtain ⟨ext, hext⟩ := bfsInner_ext tl (v ++ [x]) (q ++ [x])
        rw [hext]
        exact List.mem_append_left _ (List.mem_append_right _ (List.mem_singleton_self x))
    · cases hc : v.contains y with
      | true => rw [if_pos rfl]; exact ih _ _ x hmem
      | false => rw [if_neg Bool.false_ne_true]; exact ih _ _ x hmem

theorem bfsInner_measure (g : List (String × List String)) (adj : List String)
    (hadj : ∀ x ∈ adj, x ∈ graphUniverse g) :
    ∀ v q : List String,
      (bfsInner adj (v, q)).2.length + notVisitedCount g (bfsInner adj (v, q)).1
        ≤ q.length + notVisitedCount g v := by
  induction adj with
  | nil => intro v q; rw [bfsInner_nil]
  | cons x tl ih =>
    intro v q
    have hxU : x ∈ graphUniverse g := hadj x (List.mem_cons_self x tl)
    have htl : ∀ y ∈ tl, y ∈ graphUniverse g := fun y hy => hadj y (List.mem_cons_of_mem x hy)
    rw [bfsInner_cons]
    cases hc : v.contains x with
    | true =>
      rw [if_pos rfl]
      exact ih htl v q
    | false =>
      rw [if_neg Bool.false_ne_true]
      have h1 := ih htl (v ++ [x]) (q ++ [x])
      have h2 := notVisited_lt_new g v x hxU (contains_false_iff.mp hc)
      simp only [List.length_append, List.length_singleton] at h1
      omega

theorem bfsInner_nodup (adj : List String) :
    ∀ v q : List String, v.Nodup → (bfsInner adj (v, q)).1.Nodup := by
  induction adj with
  | nil => intro v q hv; rw [bfsInner_nil]; exact hv
  | cons x tl ih =>
    intro v q hv
    rw [bfsInner_cons]
    cases hc : v.contains x with
    | true =>
      rw [if_pos rfl]
      exact ih v q hv
    | false =>
      rw [if_neg Bool.false_ne_true]
      exact ih _ _ (nodup_append_single hv (contains_false_iff.mp hc))

theorem bfsAux_total (g : List (String × List String)) :
    ∀ (n : Nat) (q v : List String), bfsMeasure g q v < n →
      ∃ S, bfsAux g n q v = some S := by
  intro n
  induction n with
  | zero => intro q v h; exact absurd h (Nat.not_lt_zero _)
  | succ n ih =>
    intro q v h
    cases q with
    | nil => exact ⟨v, rfl⟩
    | cons curr queue =>
      have hm := bfsInner_measure g (adjOf g curr) (adjOf_subset_universe g curr) v queue
      have hlt : bfsMeasure g (bfsInner (adjOf g curr) (v, queue)).2
          (bfsInner (adjOf g curr) (v, queue)).1 < n := by
        unfold bfsMeasure at h ⊢
        simp only [List.length_cons] at h
        omega
      obtain ⟨S, hS⟩ := ih _ _ hlt
      exact ⟨S, hS⟩

theorem bfsAux_nodup (g : List (String × List String)) :
    ∀ (n : Nat) (q v : List String) (S : List String), v.Nodup →
      bfsAux g n q v = some S → S.Nodup := by
  intro n
  induction n with
  | zero =>
    intro q v S hv hS
    cases q with
    | nil => cases hS; exact hv
    | cons curr queue => cases hS
  | succ n ih =>
    intro q v S hv hS
    cases q with
    | nil => cases hS; exact hv
    | cons curr queue =>
      exact ih _ _ _ (bfsInner_nodup (adjOf g curr) v queue hv) hS

theorem bfsAux_closed (g : List (String × List String)) :
    ∀ (n : Nat) (q v : List String) (S : List String), bfsAux g n q v = some S →
      (∀ x ∈ v, x ∈ q ∨ ∀ y ∈ adjOf g x, y ∈ v) →
      (∀ x ∈ v, x ∈ S) ∧ (∀ x ∈ q, ∀ y ∈ adjOf g x, y ∈ S) ∧
        (∀ x ∈ S, ∀ y ∈ adjOf g x, y ∈ S) := by
  intro n
  induction n with
  | zero =>
    intro q v S hS hinv
    cases q with
    | nil =>
      cases hS
      refine ⟨fun x hx => hx, fun x hx => absurd hx (List.not_mem_nil x), ?_⟩
      intro x hx y hy
      rcases hinv x hx with hq | hadj
      · cases hq
      · exact hadj y hy
    | cons curr queue => cases hS
  | succ n ih =>
    intro q v S hS hinv
    cases q with
    | nil =>
      cases hS
      refine ⟨fun x hx => hx, fun x hx => absurd hx (List.not_mem_nil x), ?_⟩
      intro x hx y hy
      rcases hinv x hx with hq | hadj
      · cases hq
      · exact hadj y hy
    | cons curr queue =>
      obtain ⟨ext, hext⟩ := bfsInner_ext (adjOf g curr) v queue
      have hv' : (bfsInner (adjOf g curr) (v, queue)).1 = v ++ ext := by rw [hext]
      have hq' : (bfsInner (adjOf g curr) (v, queue)).2 = queue ++ ext := by rw [hext]
      have hadjsub : ∀ y ∈ adjOf g curr, y ∈ v ++ ext := by
        intro y hy
        have := bfsInner_adj_subset (adjOf g curr) v queue y hy
        rwa [hv'] at this
      have hS' : bfsAux g n (queue ++ ext) (v ++ ext) = some S := by
        rw [← hv', ← hq']
        exact hS
      have hinv' : ∀ x ∈ v ++ ext, x ∈ queue ++ ext ∨ ∀ y ∈ adjOf g x, y ∈ v ++ ext := by
        intro x hx
        rcases List.mem_append.mp hx with hxv | hxe
        · rcases hinv x hxv with hq | hadj
          · rcases List.mem_cons.mp hq with rfl | hq0
            · exact Or.inr hadjsub
            · exact Or.inl (List.mem_append_left _ hq0)
          · exact Or.inr fun y hy => List.mem_append_left _ (hadj y hy)
        · exact Or.inl (List.mem_append_right _ hxe)
      obtain ⟨h1, h2, h3⟩ := ih _ _ S hS' hinv'
      refine ⟨?_, ?_, h3⟩
      · intro x hx
        exact h1 x (List.mem_append_left _ hx)
      · intro x hx y hy
        rcases List.mem_cons.mp hx with rfl | hx0
        · exact h1 y (hadjsub y hy)
        · exact h2 x (List.mem_append_left _ hx0) y hy

/-! ### Concrete scenario inputs -/

/-- File declaring `Base` with method `Foo() string` (first file of the
C1 scenario). -/
def c1BaseFile : GoFile :=
  { pkg := "main"
    imports := []
    decls := [ .typeDecl [{ name := "Base", typeParams := none, isStruct := true, fields := [], doc := "" }]
             , .funcDecl { name := "Foo", recv := some "*Base", params := [], results := [⟨[], .ident "string"⟩], docs := [] } ] }

/-- File declaring `Sub` embedding `Base` with a direct method `Foo() int`
(second file of the C1 scenario). -/
def c1SubFile : GoFile :=
  { pkg := "main"
    imports := []
    decls := [ .typeDecl [{ name := "Sub", typeParams := none, isStruct := true, fields := [⟨[], .ident "Base"⟩], doc := "" }]
             , .funcDecl { name := "Foo", recv := some "*Sub", params := [], results := [⟨[], .ident "int"⟩], docs := [] } ] }

/-- The C1 scenario options: the `Base` file first, then the `Sub` file. -/
def c1OptsBaseFirst : MakeOptions :=
  { files := [c1BaseFile, c1SubFile], structType := "Sub", pkgName := "main", withPromoted := true }

/-- The C1 scenario with the file order reversed. -/
def c1OptsSubFirst : MakeOptions :=
  { files := [c1SubFile, c1BaseFile], structType := "Sub", pkgName := "main", withPromoted := true }

/-- The C1 scenario with both declarations in a single file (the shape of
the repository test `TestMake_WithPromotedOverride`). -/
def c1OptsSingle : MakeOptions :=
  { files := [{ pkg := "main", imports := [], decls := c1BaseFile.decls ++ c1SubFile.decls }]
    structType := "Sub", pkgName := "main", withPromoted := true }

/-- An embedding chain `A → B → C` in one file, with an exported method
`Baz() int` declared on `C`. -/
def c4File : GoFile :=
  { pkg := "main"
    imports := []
    decls := [ .typeDecl [{ name := "A", typeParams := none, isStruct := true, fields := [⟨[], .ident "B"⟩], doc := "" }]
             , .typeDecl [{ name := "B", typeParams := none, isStruct := true, fields := [⟨[], .ident "C"⟩], doc := "" }]
             , .typeDecl [{ name := "C", typeParams := none, isStruct := true, fields := [], doc := "" }]
             , .funcDecl { name := "Baz", recv := some "*C", params := [], results := [⟨[], .ident "int"⟩], docs := [] } ] }

/-- Promoted-methods request for `A` over the chain file. -/
def c4Opts : MakeOptions :=
  { files := [c4File], structType := "A", pkgName := "main", withPromoted := true }

/-! ### Claims C1, C2, C4, C5, C9 -/

/-- C1 counterexample: on the scenario exactly as claimed — two files in
this order, the first declaring `Base` with `Foo() string`, the second
declaring `Sub` embedding `Base` with a direct `Foo() int`, promoted
methods requested for `Sub` — the method list retained by `Make` is
`Foo() (string)`: the promoted signature from the first file wins the
cross-file first-wins dedup, and `Foo() int` is dropped, contradicting the
claim. -/
theorem C1_counterexample :
    makeMethodCodes c1OptsBaseFirst = Except.ok ["Foo() (string)"] := rfl

/-- C1 (amended): the direct `Foo() int` is the retained signature when the
file declaring `Sub` comes first, and likewise when both declarations are
in one input file (the shape of the repository test); with the `Base` file
first the promoted `Foo() string` is retained instead. -/
theorem C1_amended_order :
    makeMethodCodes c1OptsSubFirst = Except.ok ["Foo() (int)"]
  ∧ makeMethodCodes c1OptsSingle = Except.ok ["Foo() (int)"] := ⟨rfl, rfl⟩

/-- C2: evaluation of `FormatFieldList` at the failing inputs.  The inner
alternation group of `reMatchTypename` is capturing, so the submatch list
is `[whole, modifiers, lastModifier, baseName, genericSuffix]` and the
source's `generics = match[3]` reads the base name: a field `x []MyType`
with `MyType` declared in package `other` renders as
`x []other.MyTypeMyType` (the repository test expects `x []other.MyType`),
and `g Generic[T]` with `Generic` declared in `foo` renders as
`g foo.GenericGeneric` (the test expects `g foo.Generic[T]`). -/
theorem C2_code_eval :
    FormatFieldList [⟨["x"], .slice (.ident "MyType")⟩] "main" [⟨"MyType", "other"⟩]
      = ["x []other.MyTypeMyType"]
  ∧ FormatFieldList [⟨["g"], .index (.ident "Generic") "T"⟩] "bar" [⟨"Generic", "foo"⟩]
      = ["g foo.GenericGeneric"]
  ∧ reMatchTypenameGroups "[]MyType" = some ⟨"[]", "[]", "MyType", ""⟩ := ⟨rfl, rfl, rfl⟩

/-- C4: closure completeness — for every embedding graph with a chain
`A → B → C` the breadth-first closure of `A` contains both `B` and `C`;
and on a concrete chain file the promoted-methods request for `A` includes
the exported method declared on `C`. -/
theorem C4_closure_complete :
    (∀ (g : List (String × List String)) (A B C : String),
      B ∈ adjOf g A → C ∈ adjOf g B →
        B ∈ embeddedClosure g A ∧ C ∈ embeddedClosure g A)
  ∧ makeMethodCodes c4Opts = Except.ok ["Baz() (int)"] := by
  constructor
  · intro g A B C hB hC
    obtain ⟨S, hS⟩ := bfsAux_total g (bfsMeasure g [A] [] + 1) [A] [] (Nat.lt_succ_self _)
    have hcl : embeddedClosure g A = S := by
      unfold embeddedClosure
      rw [hS]
      rfl
    obtain ⟨-, h2, h3⟩ := bfsAux_closed g _ [A] [] S hS
      (fun x hx => absurd hx (List.not_mem_nil x))
    have hBS : B ∈ S := h2 A (List.mem_singleton_self A) B hB
    rw [hcl]
    exact ⟨hBS, h3 B hBS C hC⟩
  · rfl

/-- C4 witness: the general closure-completeness part applied to the
concrete graph `A → B`, `B → C`. -/
theorem C4_witness :
    "B" ∈ embeddedClosure [("A", ["B"]), ("B", ["C"])] "A"
  ∧ "C" ∈ embeddedClosure [("A", ["B"]), ("B", ["C"])] "A" :=
  C4_closure_complete.1 [("A", ["B"]), ("B", ["C"])] "A" "B" "C" (by decide) (by decide)

/-- C5: for every embedding graph, cyclic ones included, the breadth-first
closure loop of `Make` run with fuel equal to its measure bound completes
(never exhausts the fuel), its result is the computed closure, and the
closure contains no duplicate entries; in particular on the mutual
embedding `A → B`, `B → A` the computation terminates with closure
`[B, A]`. -/
theorem C5_bfs_terminates_nodup :
    (∀ (g : List (String × List String)) (s : String),
      ∃ S, bfsAux g (bfsMeasure g [s] [] + 1) [s] [] = some S
        ∧ embeddedClosure g s = S ∧ S.Nodup)
  ∧ embeddedClosure [("A", ["B"]), ("B", ["A"])] "A" = ["B", "A"] := by
  constructor
  · intro g s
    obtain ⟨S, hS⟩ := bfsAux_total g (bfsMeasure g [s] [] + 1) [s] [] (Nat.lt_succ_self _)
    refine ⟨S, hS, ?_, bfsAux_nodup g _ _ _ S List.nodup_nil hS⟩
    unfold embeddedClosure
    rw [hS]
    rfl
  · rfl

/-- C9: invoking `Make` with an empty list of input files — whatever the
requested type and remaining options — aborts with the
`structtype not found` validation error and produces no output. -/
theorem C9_empty_files (o : MakeOptions) :
    Make { o with files := [] } = Except.error (notFoundMsg o.structType) := rfl

/-! ### Method-merge invariants (dedup, exclusion, direct precedence) -/

theorem mergeMethods_cons (ex : List String) (m : Method) (tl : List Method)
    (acc : List Method × List String) :
    mergeMethods ex (m :: tl) acc
      = mergeMethods ex tl
          (if ex.contains m.Name then acc
           else if acc.2.contains m.Name then acc
           else (acc.1 ++ [m], acc.2 ++ [m.Name])) := rfl

theorem mergeMethods_inv (ex : List String) :
    ∀ (ms : List Method) (acc : List Method × List String),
      acc.2 = acc.1.map Method.Name → acc.2.Nodup →
      (mergeMethods ex ms acc).2 = (mergeMethods ex ms acc).1.map Method.Name
        ∧ (mergeMethods ex ms acc).2.Nodup := by
  intro ms
  induction ms with
  | nil => exact fun acc h1 h2 => ⟨h1, h2⟩
  | cons m tl ih =>
    intro acc h1 h2
    rw [mergeMethods_cons]
    cases hex : ex.contains m.Name with
    | true =>
      rw [if_pos rfl]
      exact ih acc h1 h2
    | false =>
      rw [if_neg Bool.false_ne_true]
      cases hc : acc.2.contains m.Name with
      | true =>
        rw [if_pos rfl]
        exact ih acc h1 h2
      | false =>
        rw [if_neg Bool.false_ne_true]
        refine ih _ ?_ ?_
        · show acc.2 ++ [m.Name] = (acc.1 ++ [m]).map Method.Name
          rw [List.map_append, ← h1]
          rfl
        · exact nodup_append_single h2 (contains_false_iff.mp hc)

theorem mergeMethods_excl (ex : List String) :
    ∀ (ms : List Method) (acc : List Method × List String),
      (∀ m ∈ acc.1, ex.contains m.Name = false) →
      ∀ m ∈ (mergeMethods ex ms acc).1, ex.contains m.Name = false := by
  intro ms
  induction ms with
  | nil => exact fun acc h => h
  | cons m tl ih =>
    intro acc h
    rw [mergeMethods_cons]
    cases hex : ex.contains m.Name with
    | true =>
      rw [if_pos rfl]
      exact ih acc h
    | false =>
      rw [if_neg Bool.false_ne_true]
      cases hc : acc.2.contains m.Name with
      | true =>
        rw [if_pos rfl]
        exact ih acc h
      | false =>
        rw [if_neg Bool.false_ne_true]
        refine ih _ ?_
        intro m' hm'
        rcases List.mem_append.mp hm' with hold | hnew
        · exact h m' hold
        · rw [List.mem_singleton.mp hnew]
          exact hex

theorem makeStep_inv (o : MakeOptions) (allDecl : List declaredType) (closure : List String)
    (st : MakeState) (f : GoFile)
    (h1 : st.mset = st.methods.map Method.Name) (h2 : st.mset.Nodup) :
    (makeStep o allDecl closure st f).mset
        = (makeStep o allDecl closure st f).methods.map Method.Name
      ∧ (makeStep o allDecl closure st f).mset.Nodup :=
  mergeMethods_inv o.excludeMethods _ (st.methods, st.mset) h1 h2

theorem makeStep_excl (o : MakeOptions) (allDecl : List declaredType) (closure : List String)
    (st : MakeState) (f : GoFile)
    (h : ∀ m ∈ st.methods, o.excludeMethods.contains m.Name = false) :
    ∀ m ∈ (makeStep o allDecl closure st f).methods,
      o.excludeMethods.contains m.Name = false :=
  mergeMethods_excl o.excludeMethods _ (st.methods, st.mset) h

theorem foldl_makeStep_inv (o : MakeOptions) (allDecl : List declaredType) (closure : List String) :
    ∀ (files : List GoFile) (st : MakeState),
      st.mset = st.methods.map Method.Name → st.mset.Nodup →
      (files.foldl (makeStep o allDecl closure) st).mset
          = (files.foldl (makeStep o allDecl closure) st).methods.map Method.Name
        ∧ (files.foldl (makeStep o allDecl closure) st).mset.Nodup := by
  intro files
  induction files with
  | nil => exact fun st h1 h2 => ⟨h1, h2⟩
  | cons f fs ih =>
    intro st h1 h2
    rw [List.foldl_cons]
    obtain ⟨h1', h2'⟩ := makeStep_inv o allDecl closure st f h1 h2
    exact ih _ h1' h2'

theorem foldl_makeStep_excl (o : MakeOptions) (allDecl : List declaredType) (closure : List String) :
    ∀ (files : List GoFile) (st : MakeState),
      (∀ m ∈ st.methods, o.excludeMethods.contains m.Name = false) →
      ∀ m ∈ (files.foldl (makeStep o allDecl closure) st).methods,
        o.excludeMethods.contains m.Name = false := by
  intro files
  induction files with
  | nil => exact fun st h => h
  | cons f fs ih =>
    intro st h
    rw [List.foldl_cons]
    exact ih _ (makeStep_excl o allDecl closure st f h)

theorem makeFinalState_inv (o : MakeOptions) :
    (makeFinalState o).mset = (makeFinalState o).methods.map Method.Name
      ∧ (makeFinalState o).mset.Nodup :=
  foldl_makeStep_inv o _ _ o.files _ rfl List.nodup_nil

theorem makeMethodNames_eq (o : MakeOptions) :
    makeMethodNames o
      = (if validateStructType (allTypesOfFiles o.files) o.structType then
          (makeFinalState o).methods.map Method.Name
         else []) := by
  unfold makeMethodNames Make
  cases hval : validateStructType (allTypesOfFiles o.files) o.structType with
  | true => rfl
  | false => rfl

theorem methodPass_append (keep : String → Bool) (wne cd : Bool) (pn : String)
    (dts : List declaredType) :
    ∀ (ds : List GoDecl) (acc : List Method × List String),
      ∃ e1 e2, methodPass keep wne cd pn dts ds acc = (acc.1 ++ e1, acc.2 ++ e2) := by
  intro ds
  induction ds with
  | nil => exact fun acc => ⟨[], [], by simp [methodPass]⟩
  | cons d tl ih =>
    intro acc
    have hstep : ∃ u1 u2, methodPassStep keep wne cd pn dts acc d = (acc.1 ++ u1, acc.2 ++ u2) := by
      cases d with
      | typeDecl specs => exact ⟨[], [], by simp [methodPassStep]⟩
      | funcDecl fn =>
        cases hr : fn.recv with
        | none => exact ⟨[], [], by simp [methodPassStep, hr]⟩
        | some rt =>
          have heq : methodPassStep keep wne cd pn dts acc (GoDecl.funcDecl fn)
              = if keep (normalizeReceiver rt) then
                  if acc.2.contains fn.name then acc
                  else if !wne && !isExportedName fn.name then acc
                  else (acc.1 ++ [methodFromFunc cd pn dts fn], acc.2 ++ [fn.name])
                else acc := by
            simp only [methodPassStep, hr]
          rw [heq]
          cases h1 : keep (normalizeReceiver rt) with
          | false =>
            rw [if_neg Bool.false_ne_true]
            exact ⟨[], [], by simp⟩
          | true =>
            rw [if_pos rfl]
            cases h2 : acc.2.contains fn.name with
            | true =>
              rw [if_pos rfl]
              exact ⟨[], [], by simp⟩
            | false =>
              rw [if_neg Bool.false_ne_true]
              cases h3 : !wne && !isExportedName fn.name with
              | true =>
                rw [if_pos rfl]
                exact ⟨[], [], by simp⟩
              | false =>
                rw [if_neg Bool.false_ne_true]
                exact ⟨[methodFromFunc cd pn dts fn], [fn.name], rfl⟩
    obtain ⟨u1, u2, hu⟩ := hstep
    obtain ⟨e1, e2, he⟩ := ih (methodPassStep keep wne cd pn dts acc d)
    refine ⟨u1 ++ e1, u2 ++ e2, ?_⟩
    show methodPass keep wne cd pn dts tl (methodPassStep keep wne cd pn dts acc d) = _
    rw [he, hu]
    simp [List.append_assoc]

/-- C3: (a) for every run of `Make`, the retained method list has at most
one entry per name (the name list is duplicate-free); (b) within one
file's extraction, whenever the direct-methods loop picked up a method of
a given name, the entry of that name in `ParseStruct`'s full output is
exactly the direct loop's entry, so a same-named promoted method never
replaces a method declared directly on the target type. -/
theorem C3_dedup_direct_precedence :
    (∀ o : MakeOptions, (makeMethodNames o).Nodup)
  ∧ (∀ (f : GoFile) (sn : String) (cd ctd : Bool) (pn : String) (dts : List declaredType)
       (im : String) (wne : Bool) (es : List String) (wp : Bool) (n : String),
      (directMethods f sn wne cd pn dts).1.any (fun m => m.Name == n) = true →
      (ParseStruct f sn cd ctd pn dts im wne es wp).1.find? (fun m => m.Name == n)
        = (directMethods f sn wne cd pn dts).1.find? (fun m => m.Name == n)) := by
  constructor
  · intro o
    rw [makeMethodNames_eq]
    cases hval : validateStructType (allTypesOfFiles o.files) o.structType with
    | false =>
      rw [if_neg Bool.false_ne_true]
      exact List.nodup_nil
    | true =>
      rw [if_pos rfl]
      obtain ⟨h1, h2⟩ := makeFinalState_inv o
      rw [← h1]
      exact h2
  · intro f sn cd ctd pn dts im wne es wp n hany
    have hsome : ((directMethods f sn wne cd pn dts).1.find? (fun m => m.Name == n)).isSome := by
      rw [List.find?_isSome]
      exact List.any_eq_true.mp hany
    obtain ⟨a, ha⟩ := Option.isSome_iff_exists.mp hsome
    cases wp with
    | false =>
      show (directMethods f sn wne cd pn dts).1.find? _ = _
      rfl
    | true =>
      obtain ⟨e1, e2, he⟩ := methodPass_append (fun a => es.contains a) wne cd pn dts f.decls
        (directMethods f sn wne cd pn dts)
      show ((methodPass (fun a => es.contains a) wne cd pn dts f.decls
        (directMethods f sn wne cd pn dts)).1.find? (fun m => m.Name == n)) = _
      rw [he]
      show ((directMethods f sn wne cd pn dts).1 ++ e1).find? (fun m => m.Name == n) = _
      rw [List.find?_append, ha]
      rfl

/-- The single input file of the C3 witness: `Base` with `Foo() string`,
`Sub` embedding `Base` with a direct `Foo() int`. -/
def c3File : GoFile :=
  { pkg := "main", imports := [], decls := c1BaseFile.decls ++ c1SubFile.decls }

/-- C3 witness: the direct-precedence part applied to the concrete
single-file override scenario at name `Foo`. -/
theorem C3_witness :
    (ParseStruct c3File "Sub" false false "main" [] "" false ["Base"] true).1.find?
        (fun m => m.Name == "Foo")
      = (directMethods c3File "Sub" false false "main" []).1.find? (fun m => m.Name == "Foo") :=
  C3_dedup_direct_precedence.2 c3File "Sub" false false "main" [] "" false ["Base"] true "Foo"
    (by decide)

/-- C8: a method name on the caller-supplied exclusion list never appears
among the methods retained by `Make`, whether the method was declared
directly on the target type or reached through embedding. -/
theorem C8_exclusion (o : MakeOptions) (m : String) (hm : m ∈ o.excludeMethods) :
    m ∉ makeMethodNames o := by
  rw [makeMethodNames_eq]
  cases hval : validateStructType (allTypesOfFiles o.files) o.structType with
  | false =>
    rw [if_neg Bool.false_ne_true]
    exact List.not_mem_nil m
  | true =>
    rw [if_pos rfl]
    intro hmem
    obtain ⟨e, he, hname⟩ := List.mem_map.mp hmem
    have hfree : o.excludeMethods.contains e.Name = false :=
      foldl_makeStep_excl o _ _ o.files _ (fun m hm => absurd hm (List.not_mem_nil m)) e he
    rw [hname] at hfree
    exact contains_false_iff.mp hfree hm

/-- C8 witness: excluding `Bar` on a concrete two-method input. -/
theorem C8_witness :
    "Bar" ∉ makeMethodNames
      { files := [{ pkg := "main", imports := []
                  , decls := [ .typeDecl [{ name := "MyStruct", typeParams := none, isStruct := true, fields := [], doc := "" }]
                             , .funcDecl { name := "Foo", recv := some "*MyStruct", params := [], results := [], docs := [] }
                             , .funcDecl { name := "Bar", recv := some "*MyStruct", params := [], results := [], docs := [] } ] }]
        structType := "MyStruct", pkgName := "main", excludeMethods := ["Bar"] } :=
  C8_exclusion _ "Bar" (by decide)

/-! ### Validation: the "type not found" error -/

/-- Some input file declares a type of the given name. -/
def filesDeclare (files : List GoFile) (n : String) : Bool :=
  files.any (fun f => (ParseDeclaredTypes f).any (fun t => t.Name == n))

theorem append_dot_inj :
    ∀ (a b c d : List Char), '.' ∉ a → '.' ∉ c →
      a ++ '.' :: b = c ++ '.' :: d → a = c ∧ b = d := by
  intro a
  induction a with
  | nil =>
    intro b c d _ hc h
    cases c with
    | nil =>
      simp only [List.nil_append] at h
      exact ⟨rfl, (List.cons.injEq _ _ _ _ ▸ h).2⟩
    | cons c0 cs =>
      simp only [List.nil_append, List.cons_append] at h
      have : c0 = '.' := ((List.cons.injEq _ _ _ _ ▸ h).1).symm
      exact absurd (this ▸ List.mem_cons_self c0 cs) hc
  | cons a0 as ih =>
    intro b c d ha hc h
    cases c with
    | nil =>
      simp only [List.cons_append, List.nil_append] at h
      have : a0 = '.' := (List.cons.injEq _ _ _ _ ▸ h).1
      exact absurd (this ▸ List.mem_cons_self a0 as) ha
    | cons c0 cs =>
      simp only [List.cons_append] at h
      have h0 : a0 = c0 := (List.cons.injEq _ _ _ _ ▸ h).1
      have h1 : as ++ '.' :: b = cs ++ '.' :: d := (List.cons.injEq _ _ _ _ ▸ h).2
      obtain ⟨hac, hbd⟩ := ih b cs d
        (fun hm => ha (List.mem_cons_of_mem a0 hm))
        (fun hm => hc (List.mem_cons_of_mem c0 hm)) h1
      exact ⟨by rw [h0, hac], hbd⟩

theorem fullname_inj_name {u t : declaredType}
    (hu : '.' ∉ u.Package.data) (ht : '.' ∉ t.Package.data)
    (h : u.Fullname = t.Fullname) : u.Name = t.Name := by
  have hd : (u.Package.data ++ ['.']) ++ u.Name.data
      = (t.Package.data ++ ['.']) ++ t.Name.data := congrArg String.data h
  rw [List.append_assoc, List.append_assoc] at hd
  obtain ⟨-, hn⟩ := append_dot_inj u.Package.data u.Name.data t.Package.data t.Name.data hu ht hd
  exact congrArg String.mk hn

theorem dedupTypes_cons (t : declaredType) (ts : List declaredType)
    (acc : List declaredType × List String) :
    dedupTypes (t :: ts) acc
      = dedupTypes ts
          (if acc.2.contains t.Fullname then acc
           else (acc.1 ++ [t], acc.2 ++ [t.Fullname])) := rfl

theorem parseDeclaredTypes_pkg (f : GoFile) :
    ∀ t ∈ ParseDeclaredTypes f, t.Package = f.pkg := by
  intro t ht
  unfold ParseDeclaredTypes at ht
  obtain ⟨n, -, hn⟩ := List.mem_map.mp ht
  rw [← hn]

theorem dedupTypes_snd :
    ∀ (ts : List declaredType) (acc : List declaredType × List String),
      acc.2 = acc.1.map declaredType.Fullname →
      (dedupTypes ts acc).2 = (dedupTypes ts acc).1.map declaredType.Fullname := by
  intro ts
  induction ts with
  | nil => exact fun acc h => h
  | cons t tl ih =>
    intro acc h
    rw [dedupTypes_cons]
    cases hc : acc.2.contains t.Fullname with
    | true =>
      rw [if_pos rfl]
      exact ih acc h
    | false =>
      rw [if_neg Bool.false_ne_true]
      refine ih _ ?_
      show acc.2 ++ [t.Fullname] = (acc.1 ++ [t]).map declaredType.Fullname
      rw [List.map_append, ← h]
      rfl

theorem dedupTypes_mem :
    ∀ (ts : List declaredType) (acc : List declaredType × List String),
      ∀ u ∈ (dedupTypes ts acc).1, u ∈ acc.1 ∨ u ∈ ts := by
  intro ts
  induction ts with
  | nil => exact fun acc u hu => Or.inl hu
  | cons t tl ih =>
    intro acc u hu
    rw [dedupTypes_cons] at hu
    cases hc : acc.2.contains t.Fullname with
    | true =>
      rw [hc, if_pos rfl] at hu
      rcases ih acc u hu with h | h
      · exact Or.inl h
      · exact Or.inr (List.mem_cons_of_mem t h)
    | false =>
      rw [hc, if_neg Bool.false_ne_true] at hu
      rcases ih _ u hu with h | h
      · rcases List.mem_append.mp h with h0 | h0
        · exact Or.inl h0
        · exact Or.inr (List.mem_singleton.mp h0 ▸ List.mem_cons_self t tl)
      · exact Or.inr (List.mem_cons_of_mem t h)

theorem validate_dedup (n : String) :
    ∀ (ts : List declaredType) (acc : List declaredType × List String),
      acc.2 = acc.1.map declaredType.Fullname →
      (∀ u ∈ acc.1, '.' ∉ u.Package.data) →
      (∀ u ∈ ts, '.' ∉ u.Package.data) →
      validateStructType (dedupTypes ts acc).1 n
        = (validateStructType acc.1 n || ts.any (fun t => t.Name == n)) := by
  intro ts
  induction ts with
  | nil =>
    intro acc _ _ _
    show validateStructType acc.1 n = (validateStructType acc.1 n || false)
    rw [Bool.or_false]
  | cons t tl ih =>
    intro acc h1 h2 h3
    rw [dedupTypes_cons, List.any_cons]
    cases hc : acc.2.contains t.Fullname with
    | true =>
      rw [if_pos rfl, ih acc h1 h2 (fun u hu => h3 u (List.mem_cons_of_mem t hu))]
      cases hb : t.Name == n with
      | false => rw [Bool.false_or]
      | true =>
        have hmem : t.Fullname ∈ acc.2 := contains_iff.mp hc
        rw [h1] at hmem
        obtain ⟨u, hu, hfn⟩ := List.mem_map.mp hmem
        have hname : u.Name = t.Name :=
          fullname_inj_name (h2 u hu) (h3 t (List.mem_cons_self t tl)) hfn
        have hv : validateStructType acc.1 n = true := by
          refine List.any_eq_true.mpr ⟨u, hu, ?_⟩
          rw [hname]
          exact hb
        rw [hv]
        simp
    | false =>
      rw [if_neg Bool.false_ne_true]
      have h1' : (acc.1 ++ [t], acc.2 ++ [t.Fullname]).2
          = (acc.1 ++ [t], acc.2 ++ [t.Fullname]).1.map declaredType.Fullname := by
        show acc.2 ++ [t.Fullname] = (acc.1 ++ [t]).map declaredType.Fullname
        rw [List.map_append, ← h1]
        rfl
      have h2' : ∀ u ∈ acc.1 ++ [t], '.' ∉ u.Package.data := by
        intro u hu
        rcases List.mem_append.mp hu with h0 | h0
        · exact h2 u h0
        · exact List.mem_singleton.mp h0 ▸ h3 t (List.mem_cons_self t tl)
      rw [ih _ h1' h2' (fun u hu => h3 u (List.mem_cons_of_mem t hu))]
      show ((acc.1 ++ [t]).any (fun v => v.Name == n) || tl.any (fun t => t.Name == n))
        = (validateStructType acc.1 n || ((t.Name == n) || tl.any (fun t => t.Name == n)))
      rw [List.any_append, List.any_cons, List.any_nil, Bool.or_false, Bool.or_assoc]
      rfl

theorem validate_files (n : String) :
    ∀ (files : List GoFile) (acc : List declaredType × List String),
      acc.2 = acc.1.map declaredType.Fullname →
      (∀ u ∈ acc.1, '.' ∉ u.Package.data) →
      (∀ f ∈ files, '.' ∉ f.pkg.data) →
      validateStructType
          (files.foldl (fun acc f => dedupTypes (ParseDeclaredTypes f) acc) acc).1 n
        = (validateStructType acc.1 n || filesDeclare files n) := by
  intro files
  induction files with
  | nil =>
    intro acc _ _ _
    show validateStructType acc.1 n = (validateStructType acc.1 n || false)
    rw [Bool.or_false]
  | cons f fs ih =>
    intro acc h1 h2 h3
    rw [List.foldl_cons]
    have hfpkg : ∀ u ∈ ParseDeclaredTypes f, '.' ∉ u.Package.data := by
      intro u hu
      rw [parseDeclaredTypes_pkg f u hu]
      exact h3 f (List.mem_cons_self f fs)
    have h1' := dedupTypes_snd (ParseDeclaredTypes f) acc h1
    have h2' : ∀ u ∈ (dedupTypes (ParseDeclaredTypes f) acc).1, '.' ∉ u.Package.data := by
      intro u hu
      rcases dedupTypes_mem (ParseDeclaredTypes f) acc u hu with h0 | h0
      · exact h2 u h0
      · exact hfpkg u h0
    rw [ih _ h1' h2' (fun g hg => h3 g (List.mem_cons_of_mem f hg))]
    rw [validate_dedup n (ParseDeclaredTypes f) acc h1 h2 hfpkg]
    show ((validateStructType acc.1 n || (ParseDeclaredTypes f).any (fun t => t.Name == n))
        || filesDeclare fs n)
      = (validateStructType acc.1 n || filesDeclare (f :: fs) n)
    show ((validateStructType acc.1 n || (ParseDeclaredTypes f).any (fun t => t.Name == n))
        || filesDeclare fs n)
      = (validateStructType acc.1 n
          || (f :: fs).any (fun f => (ParseDeclaredTypes f).any (fun t => t.Name == n)))
    rw [List.any_cons, ← Bool.or_assoc]
    rfl

/-- C7: `Make` returns the `structtype not found` error — the message
naming the requested type — exactly when the requested type name is not
declared in any input file, and then no interface text is produced (the
run aborts with the error before extraction).  The hypothesis that package
names contain no dot is automatic for parsed Go source, where package
names are identifiers. -/
theorem C7_not_found_iff (o : MakeOptions) (hdot : ∀ f ∈ o.files, '.' ∉ f.pkg.data) :
    Make o = Except.error (notFoundMsg o.structType)
      ↔ filesDeclare o.files o.structType = false := by
  have hval : validateStructType (allTypesOfFiles o.files) o.structType
      = filesDeclare o.files o.structType := by
    unfold allTypesOfFiles
    rw [validate_files o.structType o.files ([], []) rfl (fun u hu => absurd hu (List.not_mem_nil u)) hdot]
    rfl
  unfold Make
  rw [hval]
  cases hfd : filesDeclare o.files o.structType with
  | false =>
    rw [if_pos (show (!false) = true from rfl)]
    simp
  | true =>
    rw [if_neg (show ¬((!true) = true) from Bool.false_ne_true)]
    simp

/-- Input file of the C7 witness: declares only `Widget`. -/
def c7File : GoFile :=
  { pkg := "main", imports := []
    decls := [.typeDecl [{ name := "Widget", typeParams := none, isStruct := true, fields := [], doc := "" }]] }

/-- C7 witness: requesting `NonExistent` against a file declaring only
`Widget` aborts with the error naming the requested type. -/
theorem C7_witness :
    Make { files := [c7File], structType := "NonExistent", pkgName := "main" }
      = Except.error (notFoundMsg "NonExistent") :=
  (C7_not_found_iff { files := [c7File], structType := "NonExistent", pkgName := "main" }
    (by decide)).mpr (by decide)

/-! ### Destination-package stripping -/

theorem startsWith_mem : ∀ (p l : List Char), startsWithList p l = true → ∀ x ∈ p, x ∈ l := by
  intro p
  induction p with
  | nil => intro l _ x hx; cases hx
  | cons p0 ps ih =>
    intro l h x hx
    cases l with
    | nil => exact absurd h (by simp [startsWithList])
    | cons c cs =>
      obtain ⟨h1, h2⟩ := Bool.and_eq_true_iff.mp h
      have hp0 : p0 = c := eq_of_beq h1
      rcases List.mem_cons.mp hx with rfl | hmem
      · rw [hp0]
        exact List.mem_cons_self c cs
      · exact List.mem_cons_of_mem c (ih cs h2 x hmem)

theorem startsWith_append_self : ∀ (p l : List Char), startsWithList p (p ++ l) = true := by
  intro p
  induction p with
  | nil => intro l; rfl
  | cons p0 ps ih =>
    intro l
    show (p0 == p0 && startsWithList ps (ps ++ l)) = true
    rw [ih l]
    simp

theorem startsWith_head_ne {p0 c : Char} (ps cs : List Char) (h : p0 ≠ c) :
    startsWithList (p0 :: ps) (c :: cs) = false := by
  show (p0 == c && startsWithList ps cs) = false
  rw [beq_eq_false_iff_ne.mpr h]
  rfl

theorem word_ne_of_nonword {p0 c : Char} (hp : isWordChar p0 = true)
    (hc : isWordChar c = false) : p0 ≠ c := by
  intro h
  rw [h, hc] at hp
  exact Bool.false_ne_true hp

theorem startsWith_ne_head (pat : List Char) (c : Char) (cs : List Char)
    (hne : pat ≠ [])
    (hheadw : ∀ p0 pr, pat = p0 :: pr → isWordChar p0 = true)
    (hcw : isWordChar c = false) :
    startsWithList pat (c :: cs) = false := by
  cases hp : pat with
  | nil => exact absurd hp hne
  | cons p0 pr =>
    exact startsWith_head_ne pr cs (word_ne_of_nonword (hheadw p0 pr hp) hcw)

theorem stripAux_succ_cons (pat : List Char) (n : Nat) (b : Bool) (c : Char) (cs : List Char) :
    stripAux pat (n + 1) b (c :: cs)
      = if b && startsWithList pat (c :: cs) then stripAux pat n false ((c :: cs).drop pat.length)
        else if !isWordChar c && startsWithList pat cs then
          c :: stripAux pat n false (cs.drop pat.length)
        else c :: stripAux pat n false cs := rfl

theorem stripAux_allWord (pat : List Char) (hdot : '.' ∈ pat) :
    ∀ (cs : List Char) (fuel : Nat) (b : Bool), cs.length ≤ fuel →
      (∀ c ∈ cs, isWordChar c = true) → stripAux pat fuel b cs = cs := by
  intro cs
  induction cs with
  | nil => intro fuel b _ _; cases fuel <;> rfl
  | cons c cs ih =>
    intro fuel b hlen hw
    cases fuel with
    | zero => exact absurd hlen (by simp)
    | succ n =>
      have hnostart : startsWithList pat (c :: cs) = false := by
        cases hsw : startsWithList pat (c :: cs) with
        | false => rfl
        | true =>
          have hmem : '.' ∈ c :: cs := startsWith_mem pat (c :: cs) hsw '.' hdot
          have : isWordChar '.' = true := hw '.' hmem
          exact absurd this (by decide)
      have hnorest : startsWithList pat cs = false := by
        cases hsw : startsWithList pat cs with
        | false => rfl
        | true =>
          have hmem : '.' ∈ cs := startsWith_mem pat cs hsw '.' hdot
          have : isWordChar '.' = true := hw '.' (List.mem_cons_of_mem c hmem)
          exact absurd this (by decide)
      rw [stripAux_succ_cons, hnostart, Bool.and_false, if_neg Bool.false_ne_true,
        hnorest, Bool.and_false, if_neg Bool.false_ne_true,
        ih n false (Nat.le_of_succ_le_succ hlen) (fun x hx => hw x (List.mem_cons_of_mem c hx))]

theorem stripAux_match_start (pat : List Char) (n : Nat) (rest : List Char) (hne : pat ≠ []) :
    stripAux pat (n + 1) true (pat ++ rest) = stripAux pat n false rest := by
  cases hp : pat with
  | nil => exact absurd hp hne
  | cons p0 pr =>
    rw [List.cons_append, stripAux_succ_cons]
    have hsw : startsWithList (p0 :: pr) (p0 :: (pr ++ rest)) = true := by
      rw [← List.cons_append]
      exact startsWith_append_self (p0 :: pr) rest
    have hcond : (true && startsWithList (p0 :: pr) (p0 :: (pr ++ rest))) = true := by
      rw [hsw]
      rfl
    rw [if_pos hcond]
    have hdrop : (p0 :: (pr ++ rest)).drop (p0 :: pr).length = rest := by
      rw [← List.cons_append]
      exact List.drop_left _ _
    rw [hdrop]

theorem stripAux_skip_char (pat : List Char) (n : Nat) (b : Bool) (c : Char) (cs : List Char)
    (hnot1 : startsWithList pat (c :: cs) = false)
    (hnot2 : startsWithList pat cs = false) :
    stripAux pat (n + 1) b (c :: cs) = c :: stripAux pat n false cs := by
  rw [stripAux_succ_cons, hnot1, Bool.and_false, if_neg Bool.false_ne_true,
    hnot2, Bool.and_false, if_neg Bool.false_ne_true]

theorem stripAux_start_full (pkg ns : List Char) (fuel : Nat)
    (hw : ∀ c ∈ ns, isWordChar c = true)
    (hfuel : ns.length + 1 ≤ fuel) :
    stripAux (pkg ++ ['.']) fuel true ((pkg ++ ['.']) ++ ns) = ns := by
  cases fuel with
  | zero => exact absurd hfuel (by omega)
  | succ n =>
    rw [stripAux_match_start (pkg ++ ['.']) n ns (by simp)]
    exact stripAux_allWord (pkg ++ ['.'])
      (List.mem_append_right pkg (List.mem_singleton_self '.')) ns n false (by omega) hw

theorem stripAux_after_full (pat ns : List Char) (fuel : Nat) (b : Bool) (c : Char)
    (hcw : isWordChar c = false)
    (hne : pat ≠ [])
    (hheadw : ∀ p0 pr, pat = p0 :: pr → isWordChar p0 = true)
    (hdot : '.' ∈ pat)
    (hw : ∀ x ∈ ns, isWordChar x = true)
    (hfuel : ns.length + 1 ≤ fuel) :
    stripAux pat fuel b (c :: (pat ++ ns)) = c :: ns := by
  cases fuel with
  | zero => exact absurd hfuel (by omega)
  | succ n =>
    cases hp : pat with
    | nil => exact absurd hp hne
    | cons p0 pr =>
      have hp0w : isWordChar p0 = true := hheadw p0 pr hp
      have hdot' : '.' ∈ p0 :: pr := hp ▸ hdot
      have h1 : startsWithList (p0 :: pr) (c :: ((p0 :: pr) ++ ns)) = false :=
        startsWith_head_ne pr ((p0 :: pr) ++ ns) (word_ne_of_nonword hp0w hcw)
      have hcond : (!isWordChar c && startsWithList (p0 :: pr) ((p0 :: pr) ++ ns)) = true := by
        rw [hcw, startsWith_append_self]
        rfl
      rw [stripAux_succ_cons, h1, Bool.and_false, if_neg Bool.false_ne_true,
        if_pos hcond, List.drop_left,
        stripAux_allWord (p0 :: pr) hdot' ns n false (by omega) hw]

theorem stripAux_brackets (pat ns : List Char) (fuel : Nat)
    (hne : pat ≠ [])
    (hheadw : ∀ p0 pr, pat = p0 :: pr → isWordChar p0 = true)
    (hdot : '.' ∈ pat)
    (hw : ∀ x ∈ ns, isWordChar x = true)
    (hfuel : ns.length + 2 ≤ fuel) :
    stripAux pat fuel true ('[' :: ']' :: (pat ++ ns)) = '[' :: ']' :: ns := by
  cases fuel with
  | zero => exact absurd hfuel (by omega)
  | succ n =>
    have hnot1 : startsWithList pat ('[' :: (']' :: (pat ++ ns))) = false :=
      startsWith_ne_head pat '[' (']' :: (pat ++ ns)) hne hheadw (by decide)
    have hnot2 : startsWithList pat (']' :: (pat ++ ns)) = false :=
      startsWith_ne_head pat ']' (pat ++ ns) hne hheadw (by decide)
    rw [stripAux_skip_char pat n true '[' (']' :: (pat ++ ns)) hnot1 hnot2]
    exact congrArg (List.cons '[')
      (stripAux_after_full pat ns n false ']' (by decide) hne hheadw hdot hw (by omega))

/-- C6 counterexample: the type text `bar.bar.Type` rendered into package
`bar`.  The first `bar.` is removed by the start-of-text match, which also
consumes the dot preceding the second `bar.`; Go's `ReplaceAllString` is
non-overlapping, so the second occurrence — though preceded by the
non-word character `.` in the original text — survives: the result is
`bar.Type`, not `Type` as the claim requires. -/
theorem C6_counterexample :
    formatFieldEntry "bar" [] ⟨[], .sel (.sel (.ident "bar") "bar") "Type"⟩ = "bar.Type"
  ∧ stripDestPkg "bar" "bar.bar.Type" = "bar.Type"
  ∧ ("bar.Type" : String) ≠ "Type" := ⟨rfl, rfl, by decide⟩

/-- C6 (amended): destination-package stripping removes a
`destPackage.` qualifier at the start of the text and equally one that
follows composite-type punctuation such as `*`, `[` of a slice, or `(` —
not only at the start — for every word-character package name and type
name; occurrences whose preceding character was already consumed by an
earlier replacement (consecutive qualifiers) are the one exception, per
the non-overlapping left-to-right replacement. -/
theorem C6_strip_after_punctuation (pkg name : String)
    (hp1 : pkg.data ≠ []) (hp2 : ∀ c ∈ pkg.data, isWordChar c = true)
    (hn : ∀ c ∈ name.data, isWordChar c = true) :
    stripDestPkg pkg (pkg ++ "." ++ name) = name
  ∧ stripDestPkg pkg ("*" ++ pkg ++ "." ++ name) = "*" ++ name
  ∧ stripDestPkg pkg ("[]" ++ pkg ++ "." ++ name) = "[]" ++ name
  ∧ stripDestPkg pkg ("(" ++ pkg ++ "." ++ name) = "(" ++ name := by
  have hne : pkg.data ++ ['.'] ≠ [] := by simp
  have hheadw : ∀ p0 pr, pkg.data ++ ['.'] = p0 :: pr → isWordChar p0 = true := by
    intro p0 pr h
    cases hd : pkg.data with
    | nil => exact absurd hd hp1
    | cons k0 kr =>
      rw [hd, List.cons_append] at h
      have : k0 = p0 := (List.cons.injEq _ _ _ _ ▸ h).1
      rw [← this]
      exact hp2 k0 (by rw [hd]; exact List.mem_cons_self k0 kr)
  have hdot : '.' ∈ pkg.data ++ ['.'] := List.mem_append_right _ (List.mem_singleton_self '.')
  refine ⟨?_, ?_, ?_, ?_⟩
  · show (⟨stripAux (pkg.data ++ ['.'])
        ((pkg.data ++ ['.']) ++ name.data).length true ((pkg.data ++ ['.']) ++ name.data)⟩
        : String) = name
    rw [stripAux_start_full pkg.data name.data _ hn
      (by simp only [List.length_append, List.length_cons, List.length_nil]; omega)]
  · show (⟨stripAux (pkg.data ++ ['.'])
        ('*' :: ((pkg.data ++ ['.']) ++ name.data)).length true
        ('*' :: ((pkg.data ++ ['.']) ++ name.data))⟩ : String) = "*" ++ name
    rw [stripAux_after_full (pkg.data ++ ['.']) name.data _ true '*' (by decide)
      hne hheadw hdot hn
      (by simp only [List.length_cons, List.length_append, List.length_nil]; omega)]
    rfl
  · show (⟨stripAux (pkg.data ++ ['.'])
        ('[' :: ']' :: ((pkg.data ++ ['.']) ++ name.data)).length true
        ('[' :: ']' :: ((pkg.data ++ ['.']) ++ name.data))⟩ : String) = "[]" ++ name
    rw [stripAux_brackets (pkg.data ++ ['.']) name.data _ hne hheadw hdot hn
      (by simp only [List.length_cons, List.length_append, List.length_nil]; omega)]
    rfl
  · show (⟨stripAux (pkg.data ++ ['.'])
        ('(' :: ((pkg.data ++ ['.']) ++ name.data)).length true
        ('(' :: ((pkg.data ++ ['.']) ++ name.data))⟩ : String) = "(" ++ name
    rw [stripAux_after_full (pkg.data ++ ['.']) name.data _ true '(' (by decide)
      hne hheadw hdot hn
      (by simp only [List.length_cons, List.length_append, List.length_nil]; omega)]
    rfl

/-- C6 witness: the amended stripping theorem at `pkg = bar`,
`name = Type`. -/
theorem C6_witness :
    stripDestPkg "bar" ("bar" ++ "." ++ "Type") = "Type"
  ∧ stripDestPkg "bar" ("[]" ++ "bar" ++ "." ++ "Type") = "[]" ++ "Type" :=
  ⟨(C6_strip_after_punctuation "bar" "Type" (by decide) (by decide) (by decide)).1,
   (C6_strip_after_punctuation "bar" "Type" (by decide) (by decide) (by decide)).2.2.1⟩

/-! ### Receiver normalisation -/

theorem takeWhile_all (p : Char → Bool) :
    ∀ l : List Char, (∀ c ∈ l, p c = true) → l.takeWhile p = l := by
  intro l
  induction l with
  | nil => intro _; rfl
  | cons c cs ih =>
    intro h
    rw [List.takeWhile_cons, h c (List.mem_cons_self c cs), if_pos rfl,
      ih (fun x hx => h x (List.mem_cons_of_mem c hx))]

theorem dropWhile_all (p : Char → Bool) :
    ∀ l : List Char, (∀ c ∈ l, p c = true) → l.dropWhile p = [] := by
  intro l
  induction l with
  | nil => intro _; rfl
  | cons c cs ih =>
    intro h
    rw [List.dropWhile_cons, h c (List.mem_cons_self c cs), if_pos rfl,
      ih (fun x hx => h x (List.mem_cons_of_mem c hx))]

theorem takeWhile_stop (p : Char → Bool) :
    ∀ (l₁ : List Char) (c : Char) (l₂ : List Char),
      (∀ x ∈ l₁, p x = true) → p c = false → (l₁ ++ c :: l₂).takeWhile p = l₁ := by
  intro l₁
  induction l₁ with
  | nil =>
    intro c l₂ _ hc
    rw [List.nil_append, List.takeWhile_cons, hc, if_neg Bool.false_ne_true]
  | cons a as ih =>
    intro c l₂ h hc
    rw [List.cons_append, List.takeWhile_cons, h a (List.mem_cons_self a as), if_pos rfl,
      ih c l₂ (fun x hx => h x (List.mem_cons_of_mem a hx)) hc]

theorem dropWhile_stop (p : Char → Bool) :
    ∀ (l₁ : List Char) (c : Char) (l₂ : List Char),
      (∀ x ∈ l₁, p x = true) → p c = false → (l₁ ++ c :: l₂).dropWhile p = c :: l₂ := by
  intro l₁
  induction l₁ with
  | nil =>
    intro c l₂ _ hc
    rw [List.nil_append, List.dropWhile_cons, hc, if_neg Bool.false_ne_true]
  | cons a as ih =>
    intro c l₂ h hc
    rw [List.cons_append, List.dropWhile_cons, h a (List.mem_cons_self a as), if_pos rfl,
      ih c l₂ (fun x hx => h x (List.mem_cons_of_mem a hx)) hc]

theorem tailMatch_word (base : List Char) (b0 : Char) (bs : List Char)
    (hb : base = b0 :: bs) (h2 : ∀ c ∈ base, isWordChar c = true) :
    tailMatch base = some (base, []) := by
  unfold tailMatch
  rw [takeWhile_all isWordChar base h2, dropWhile_all isWordChar base h2, hb]
  rfl

theorem receiverBaseName_word (base : String) (b0 : Char) (bs : List Char)
    (hb : base.data = b0 :: bs) (h2 : ∀ c ∈ base.data, isWordChar c = true) :
    receiverBaseName base = base := by
  unfold receiverBaseName
  rw [tailMatch_word base.data b0 bs hb h2]

theorem tailMatch_generic (base args : List Char) (b0 : Char) (bs : List Char)
    (hb : base = b0 :: bs) (h2 : ∀ c ∈ base, isWordChar c = true)
    (ha : args ≠ []) (hnl : args.any (fun c => c == '\n') = false) :
    tailMatch (base ++ '[' :: (args ++ [']'])) = some (base, '[' :: (args ++ [']'])) := by
  have hbe : base.isEmpty = false := by
    rw [hb]
    rfl
  have hre : ('[' :: (args ++ [']'])).isEmpty = false := rfl
  have hlast : (('[' :: (args ++ [']'])).getLast? == some ']') = true := by
    rw [← List.cons_append, List.getLast?_concat]
    rfl
  have hcond : (('[' :: (args ++ [']'])).head? == some '['
      && ('[' :: (args ++ [']'])).getLast? == some ']') = true := by
    rw [hlast]
    rfl
  have hmid1 : ((('[' :: (args ++ [']'])).drop 1).dropLast).isEmpty = false := by
    show ((args ++ [']']).dropLast).isEmpty = false
    rw [List.dropLast_concat]
    cases args with
    | nil => exact absurd rfl ha
    | cons a as => rfl
  have hmid2 : ((('[' :: (args ++ [']'])).drop 1).dropLast).any (fun c => c == '\n') = false := by
    show ((args ++ [']']).dropLast).any (fun c => c == '\n') = false
    rw [List.dropLast_concat]
    exact hnl
  unfold tailMatch
  rw [takeWhile_stop isWordChar base '[' (args ++ [']']) h2 (by decide),
    dropWhile_stop isWordChar base '[' (args ++ [']']) h2 (by decide),
    hbe, if_neg Bool.false_ne_true, hre, if_neg Bool.false_ne_true,
    if_pos hcond, hmid1, if_neg Bool.false_ne_true, hmid2, if_neg Bool.false_ne_true]

theorem normalizeReceiver_no_star (st : String) (h : (st.data.head? == some '*') = false) :
    normalizeReceiver st = receiverBaseName st := by
  unfold normalizeReceiver
  rw [h, if_neg Bool.false_ne_true]

/-- The source file of the repository generics test: `Box[T any]` with
methods on receiver `*Box[T]`. -/
def c10File : GoFile :=
  { pkg := "generic"
    imports := []
    decls := [ .typeDecl [{ name := "Box", typeParams := some "[T any]", isStruct := true, fields := [], doc := "" }]
             , .funcDecl { name := "Add", recv := some "*Box[T]", params := [⟨["v"], .ident "T"⟩], results := [], docs := [] }
             , .funcDecl { name := "Get", recv := some "*Box[T]", params := [], results := [⟨[], .ident "T"⟩], docs := [] } ] }

/-- C10: receiver-type normalisation of `GetReceiverTypeName` — for every
word-character type name `base` and non-empty generic argument text
`args`, receivers written `base`, `*base`, `base[args]` and `*base[args]`
all normalise to `base`, so the methods they declare are attributed to
`base` and extracted exactly like plain value-receiver methods; on the
concrete generics file, extraction for `Box` picks up both `*Box[T]`
methods. -/
theorem C10_receiver_normalization :
    (∀ base args : String,
      base.data ≠ [] → (∀ c ∈ base.data, isWordChar c = true) →
      args.data ≠ [] → args.data.any (fun c => c == '\n') = false →
      normalizeReceiver base = base
      ∧ normalizeReceiver ("*" ++ base) = base
      ∧ normalizeReceiver (base ++ "[" ++ args ++ "]") = base
      ∧ normalizeReceiver ("*" ++ base ++ "[" ++ args ++ "]") = base)
  ∧ (ParseStruct c10File "Box" false false "generic" [] "" false [] false).1.map Method.Code
      = ["Add(v T)", "Get() (T)"] := by
  constructor
  · intro base args hb1 hb2 ha1 ha2
    obtain ⟨b0, bs, hb⟩ : ∃ b0 bs, base.data = b0 :: bs := by
      cases hd : base.data with
      | nil => exact absurd hd hb1
      | cons a l => exact ⟨a, l, rfl⟩
    have hw0 : isWordChar b0 = true := hb2 b0 (by rw [hb]; exact List.mem_cons_self b0 bs)
    have hdata : (base ++ "[" ++ args ++ "]").data = base.data ++ '[' :: (args.data ++ [']']) := by
      show ((base.data ++ ['[']) ++ args.data) ++ [']'] = base.data ++ '[' :: (args.data ++ [']'])
      rw [List.append_assoc, List.append_assoc]
      rfl
    have hgen : receiverBaseName (base ++ "[" ++ args ++ "]") = base := by
      unfold receiverBaseName
      rw [hdata, tailMatch_generic base.data args.data b0 bs hb hb2 ha1 ha2]
    have hplainh : (base.data.head? == some '*') = false := by
      rw [hb]
      show (b0 == '*') = false
      exact beq_eq_false_iff_ne.mpr (word_ne_of_nonword hw0 (by decide))
    have hgenh : ((base ++ "[" ++ args ++ "]").data.head? == some '*') = false := by
      rw [hdata, hb, List.cons_append]
      show (b0 == '*') = false
      exact beq_eq_false_iff_ne.mpr (word_ne_of_nonword hw0 (by decide))
    refine ⟨?_, ?_, ?_, ?_⟩
    · rw [normalizeReceiver_no_star base hplainh]
      exact receiverBaseName_word base b0 bs hb hb2
    · show receiverBaseName base = base
      exact receiverBaseName_word base b0 bs hb hb2
    · rw [normalizeReceiver_no_star (base ++ "[" ++ args ++ "]") hgenh]
      exact hgen
    · show receiverBaseName (base ++ "[" ++ args ++ "]") = base
      exact hgen
  · rfl

/-- C10 witness: the normalisation theorem at `base = Box`, `args = T`. -/
theorem C10_witness :
    normalizeReceiver "Box" = "Box"
  ∧ normalizeReceiver "*Box" = "Box"
  ∧ normalizeReceiver "Box[T]" = "Box"
  ∧ normalizeReceiver "*Box[T]" = "Box" :=
  C10_receiver_normalization.1 "Box" "T" (by decide) (by decide) (by decide) (by decide)

end Ifacemaker
